import Mathlib

/-!
Shallow embedding of `imblearn.under_sampling.RandomUnderSampler._sample`
(`src/imblearn/under_sampling/prototype_selection/random_under_sampler.py`)
and of its external collaborators (numpy's seeded generator and array
helpers, scikit-learn's `safe_indexing`), together with proofs of the
behavioural properties of the stratified under-sampling routine.

Feature matrices are `List α` (one entry per row, dense or sparse row
payloads alike), labels are `List Int`, the resolved sampling target dict is
an association list with distinct keys, and the numpy `RandomState` stream
is modelled by a deterministic congruential generator: only determinism and
the documented contract of `choice` (values in range, distinct when drawn
without replacement, error on an oversized or empty draw) are relevant to
the sampler, never the concrete distribution.
-/

namespace Imblearn

/-- State of the pseudo-random stream behind numpy's `RandomState`
(obtained through scikit-learn's `check_random_state`; external to this
repository). -/
structure RandomState where
  state : Nat
deriving DecidableEq, Repr

/-- One step of the modelled generator stream (a linear congruential
generator standing in for the Mersenne twister, which the sampler only
consumes as an opaque deterministic stream). -/
def lcgNext (s : Nat) : Nat := (s * 1103515245 + 12345) % (2 ^ 31)

/-- Model of numpy `choice(range(n), size, replace=True)` after its checks:
`size` independent uniform draws from `[0, n)`. -/
def drawWithReplacement (n : Nat) : Nat → RandomState → List Nat × RandomState
  | 0, rs => ([], rs)
  | size + 1, rs =>
    let s := lcgNext rs.state
    let rest := drawWithReplacement n size ⟨s⟩
    (s % n :: rest.1, rest.2)

/-- Model of numpy `choice(_, size, replace=False)` after its checks: a
subset of `pool` of the requested size, produced by repeatedly removing a
uniformly chosen element of the remaining pool, listed in draw order. -/
def drawWithoutReplacement : Nat → List Nat → RandomState → List Nat × RandomState
  | 0, _, rs => ([], rs)
  | size + 1, pool, rs =>
    let s := lcgNext rs.state
    let j := s % pool.length
    let rest := drawWithoutReplacement size (pool.eraseIdx j) ⟨s⟩
    (pool.getD j 0 :: rest.1, rest.2)

/-- Errors the sampling operation can abort with, following the spec's
taxonomy: `samplingError` is numpy's `ValueError` for a without-replacement
draw larger than its population, `emptyPopulationError` numpy's `ValueError`
for drawing from an empty population, and `configurationError` comes from
the target-resolver validation. -/
inductive SampleError where
  | configurationError
  | samplingError
  | emptyPopulationError
deriving DecidableEq, Repr

/-- Model of numpy `random_state.choice(range(pop), size=size, replace=replace)`
(external library): the population must be non-empty when samples are taken,
a without-replacement draw must not exceed the population, then the draws
are taken from the stream. -/
def choice (rs : RandomState) (pop size : Nat) (replace : Bool) :
    Except SampleError (List Nat) × RandomState :=
  if pop = 0 ∧ 0 < size then (.error .emptyPopulationError, rs)
  else if replace = false ∧ pop < size then (.error .samplingError, rs)
  else if replace then
    let d := drawWithReplacement pop size rs
    (.ok d.1, d.2)
  else
    let d := drawWithoutReplacement size (List.range pop) rs
    (.ok d.1, d.2)

/-- Model of `np.unique(y)`: the distinct values of `y` in ascending order. -/
def npUnique (y : List Int) : List Int := List.insertionSort (· ≤ ·) y.dedup

/-- Model of `np.flatnonzero(y == c)`: the positions of `y` carrying label
`c`, in ascending order. -/
def flatnonzero (y : List Int) (c : Int) : List Nat :=
  (List.range y.length).filter fun i => y.getD i 0 = c

/-- Model of `np.count_nonzero(y == c)`: how many positions of `y` carry
label `c`. -/
def count_nonzero (y : List Int) (c : Int) : Nat := (flatnonzero y c).length

/-- Model of `sklearn.utils.safe_indexing(X, idx)`: the rows of `X` at the
positions listed by `idx`, in that order (every index the sampler produces
is in range, cf. `sampleClasses_ok_mem`). -/
def safe_indexing [Inhabited α] (X : List α) (idx : List Nat) : List α :=
  idx.map fun i => X.getD i default

/-- The `RandomUnderSampler` instance as configured when `_sample` runs:
`sampling_target_` is the resolved per-class target dict (an association
list with distinct keys), beside the `return_indices`, `random_state`
(integer seed) and `replacement` constructor parameters. -/
structure RandomUnderSampler where
  sampling_target_ : List (Int × Nat)
  return_indices : Bool
  random_state : Nat
  replacement : Bool

/-- Model of `sklearn.utils.check_random_state` on an integer seed: a fresh
generator seeded with it. -/
def check_random_state (seed : Nat) : RandomState := ⟨seed⟩

/-- One iteration of the `for target_class in np.unique(y)` loop body of
`RandomUnderSampler._sample`: the block of absolute row indices contributed
for `target_class = c`, with the advanced generator. A targeted class draws
`sampling_target_[c]` relative positions from `range(count_nonzero(y == c))`
and maps them through `flatnonzero(y == c)`; an untargeted class keeps
`flatnonzero(y == c)` whole (`slice(None)`). -/
def classBlock (y : List Int) (mapping : List (Int × Nat)) (replacement : Bool)
    (rs : RandomState) (c : Int) : Except SampleError (List Nat) × RandomState :=
  match mapping.lookup c with
  | some n_samples =>
    match choice rs (count_nonzero y c) n_samples replacement with
    | (.ok rel, rs') => (.ok (rel.map fun i => (flatnonzero y c).getD i 0), rs')
    | (.error e, rs') => (.error e, rs')
  | none => (.ok (flatnonzero y c), rs)

/-- The loop of `RandomUnderSampler._sample` over a class list: `idx_under`
as the left-to-right concatenation of the per-class blocks, threading the
generator through the iterations; a numpy error aborts the whole call. -/
def sampleClasses (y : List Int) (mapping : List (Int × Nat)) (replacement : Bool) :
    List Int → RandomState → Except SampleError (List Nat)
  | [], _ => .ok []
  | c :: cs, rs =>
    match classBlock y mapping replacement rs c with
    | (.ok b, rs') =>
      match sampleClasses y mapping replacement cs rs' with
      | .ok rest => .ok (b ++ rest)
      | .error e => .error e
    | (.error e, _) => .error e

/-- Model of `RandomUnderSampler._sample`: seed the generator, accumulate
`idx_under` over `np.unique(y)`, slice `X` and `y` at it, and return the
selected indices as a third component exactly when `return_indices` is set
(`none` models the 2-tuple return of the Python code). -/
def _sample [Inhabited α] (s : RandomUnderSampler) (X : List α) (y : List Int) :
    Except SampleError (List α × List Int × Option (List Nat)) :=
  let random_state := check_random_state s.random_state
  match sampleClasses y s.sampling_target_ s.replacement (npUnique y) random_state with
  | .ok idx_under =>
    .ok (safe_indexing X idx_under, safe_indexing y idx_under,
      if s.return_indices then some idx_under else none)
  | .error e => .error e

/-- Modelled from the spec: the Target Resolver validation (imblearn's
`check_sampling_target`, code of this repository that is not under `src/`)
through which every public call reaches `_sample`; per the spec the sample
operation "fails with a ConfigurationError when `sampling_target_mapping`
names a class with no available samples (zero-count class targeted)". -/
def validate_sampling_target (mapping : List (Int × Nat)) (y : List Int) :
    Except SampleError Unit :=
  if mapping.all (fun p => 0 < count_nonzero y p.1) then .ok ()
  else .error .configurationError

/-- The public sample operation of the spec's Stratified Sampler: resolver
validation of the target mapping, then `RandomUnderSampler._sample`. -/
def sample [Inhabited α] (s : RandomUnderSampler) (X : List α) (y : List Int) :
    Except SampleError (List α × List Int × Option (List Nat)) :=
  match validate_sampling_target s.sampling_target_ y with
  | .ok _ => _sample s X y
  | .error e => .error e

/-- The number of rows class `c` is resolved to contribute: its target count
when targeted, its original count when not. -/
def targetLen (y : List Int) (mapping : List (Int × Nat)) (c : Int) : Nat :=
  match mapping.lookup c with
  | some n => n
  | none => count_nonzero y c

/-! ### Properties of the modelled generator draws -/

theorem drawWithReplacement_length (n : Nat) :
    ∀ (size : Nat) (rs : RandomState), (drawWithReplacement n size rs).1.length = size := by
  intro size
  induction size with
  | zero => intro rs; rfl
  | succ size ih => intro rs; simp [drawWithReplacement, ih]

theorem drawWithReplacement_lt (n : Nat) (hn : 0 < n) :
    ∀ (size : Nat) (rs : RandomState), ∀ v ∈ (drawWithReplacement n size rs).1, v < n := by
  intro size
  induction size with
  | zero => intro rs v hv; simp [drawWithReplacement] at hv
  | succ size ih =>
    intro rs v hv
    simp only [drawWithReplacement, List.mem_cons] at hv
    rcases hv with h | h
    · exact h ▸ Nat.mod_lt _ hn
    · exact ih _ v h

theorem perm_getD_cons_eraseIdx (l : List Nat) (j : Nat) (h : j < l.length) :
    l.Perm (l.getD j 0 :: l.eraseIdx j) := by
  induction l generalizing j with
  | nil => simp at h
  | cons x xs ih =>
    cases j with
    | zero => simp
    | succ j =>
      have hj : j < xs.length := by simpa using Nat.lt_of_succ_lt_succ h
      simp only [List.getD_cons_succ, List.eraseIdx_cons_succ]
      exact ((ih j hj).cons x).trans (List.Perm.swap _ _ _)

theorem drawWithoutReplacement_spec :
    ∀ (size : Nat) (pool : List Nat) (rs : RandomState), size ≤ pool.length →
      (drawWithoutReplacement size pool rs).1.length = size ∧
      (drawWithoutReplacement size pool rs).1 ⊆ pool ∧
      (pool.Nodup → (drawWithoutReplacement size pool rs).1.Nodup) ∧
      (size = pool.length → (drawWithoutReplacement size pool rs).1.Perm pool) := by
  intro size
  induction size with
  | zero =>
    intro pool rs _
    refine ⟨rfl, by simp [drawWithoutReplacement], fun _ => List.nodup_nil, fun h0 => ?_⟩
    rw [List.eq_nil_of_length_eq_zero h0.symm]
    simp [drawWithoutReplacement]
  | succ size ih =>
    intro pool rs hle
    have hpos : 0 < pool.length := Nat.lt_of_lt_of_le (Nat.succ_pos size) hle
    set s := lcgNext rs.state with hs
    set j := s % pool.length with hjdef
    have hj : j < pool.length := Nat.mod_lt _ hpos
    have hlen' : (pool.eraseIdx j).length = pool.length - 1 :=
      List.length_eraseIdx_of_lt hj
    have hle' : size ≤ (pool.eraseIdx j).length := by
      rw [hlen']
      exact Nat.le_sub_one_of_lt (Nat.lt_of_succ_le hle)
    obtain ⟨ihlen, ihsub, ihnd, ihperm⟩ := ih (pool.eraseIdx j) ⟨s⟩ hle'
    have hperm : pool.Perm (pool.getD j 0 :: pool.eraseIdx j) :=
      perm_getD_cons_eraseIdx pool j hj
    have hvmem : pool.getD j 0 ∈ pool := by
      rw [List.getD_eq_getElem _ _ hj]
      exact List.getElem_mem hj
    have hunfold : (drawWithoutReplacement (size + 1) pool rs).1 =
        pool.getD j 0 :: (drawWithoutReplacement size (pool.eraseIdx j) ⟨s⟩).1 := by
      simp [drawWithoutReplacement]
    rw [hunfold]
    refine ⟨by simp [ihlen], ?_, ?_, ?_⟩
    · intro v hv
      rcases List.mem_cons.mp hv with h | h
      · exact h ▸ hvmem
      · exact List.eraseIdx_subset pool j (ihsub h)
    · intro hnd
      have hnd' : (pool.getD j 0 :: pool.eraseIdx j).Nodup := hperm.nodup_iff.mp hnd
      have hnotmem : pool.getD j 0 ∉ pool.eraseIdx j := (List.nodup_cons.mp hnd').1
      refine List.nodup_cons.mpr ⟨fun hmem => hnotmem (ihsub hmem), ihnd (List.nodup_cons.mp hnd').2⟩
    · intro heq
      have : size = (pool.eraseIdx j).length := by omega
      exact ((ihperm this).cons _).trans hperm.symm

/-! ### Properties of the modelled numpy `choice` -/

theorem choice_ok_length {rs : RandomState} {pop size : Nat} {replace : Bool}
    {rel : List Nat} {rs' : RandomState}
    (h : choice rs pop size replace = (.ok rel, rs')) : rel.length = size := by
  unfold choice at h
  split at h
  · exact absurd h (by simp)
  · split at h
    · exact absurd h (by simp)
    · split at h
      · have := congrArg (fun p => p.1) h
        simp only at this
        have hrel : rel = (drawWithReplacement pop size rs).1 := by
          cases this; rfl
        rw [hrel, drawWithReplacement_length]
      · rename_i hne hfeas hrep
        have hsize : size ≤ pop := by
          rcases Bool.eq_false_or_eq_true replace with hrb | hrb
          · exact absurd hrb hrep
          · push_neg at hfeas
            have := hfeas hrb
            omega
        have hrel : rel = (drawWithoutReplacement size (List.range pop) rs).1 := by
          have := congrArg (fun p => p.1) h
          simp only at this
          cases this; rfl
        rw [hrel, (drawWithoutReplacement_spec size (List.range pop) rs (by simpa using hsize)).1]

theorem choice_ok_cases {rs : RandomState} {pop size : Nat} {replace : Bool}
    {rel : List Nat} {rs' : RandomState}
    (h : choice rs pop size replace = (.ok rel, rs')) :
    (replace = true ∧ (pop = 0 → size = 0) ∧
      rel = (drawWithReplacement pop size rs).1 ∧ rs' = (drawWithReplacement pop size rs).2) ∨
    (replace = false ∧ size ≤ pop ∧
      rel = (drawWithoutReplacement size (List.range pop) rs).1 ∧
      rs' = (drawWithoutReplacement size (List.range pop) rs).2) := by
  unfold choice at h
  split at h
  · exact absurd h (by simp)
  split at h
  · exact absurd h (by simp)
  split at h
  · rename_i hne hinf hrep
    injection h with h1 h2
    injection h1 with h1
    left
    refine ⟨hrep, ?_, h1.symm, h2.symm⟩
    intro hpop
    by_contra hsz
    exact hne ⟨hpop, Nat.pos_of_ne_zero hsz⟩
  · rename_i hne hinf hrep
    right
    have hrepf : replace = false := by
      cases replace
      · rfl
      · exact absurd rfl hrep
    injection h with h1 h2
    injection h1 with h1
    refine ⟨hrepf, ?_, h1.symm, h2.symm⟩
    rw [hrepf] at hinf
    push_neg at hinf
    have := hinf rfl
    omega

theorem choice_ok_lt {rs : RandomState} {pop size : Nat} {replace : Bool}
    {rel : List Nat} {rs' : RandomState}
    (h : choice rs pop size replace = (.ok rel, rs')) : ∀ v ∈ rel, v < pop := by
  rcases choice_ok_cases h with ⟨_, hps, hrel, _⟩ | ⟨_, hle, hrel, _⟩
  · intro v hv
    by_cases hpop : 0 < pop
    · exact drawWithReplacement_lt pop hpop size rs v (hrel ▸ hv)
    · have h0 : pop = 0 := by omega
      rw [hrel, hps h0] at hv
      simp [drawWithReplacement] at hv
  · intro v hv
    have hsub := (drawWithoutReplacement_spec size (List.range pop) rs (by simpa using hle)).2.1
    simpa using hsub (hrel ▸ hv)

theorem choice_ok_nodup {rs : RandomState} {pop size : Nat}
    {rel : List Nat} {rs' : RandomState}
    (h : choice rs pop size false = (.ok rel, rs')) : rel.Nodup := by
  rcases choice_ok_cases h with ⟨htr, _⟩ | ⟨_, hle, hrel, _⟩
  · exact absurd htr (by simp)
  · have := (drawWithoutReplacement_spec size (List.range pop) rs (by simpa using hle)).2.2.1
    exact hrel ▸ this (List.nodup_range pop)

theorem choice_ok_perm {rs : RandomState} {pop size : Nat}
    {rel : List Nat} {rs' : RandomState} (hsz : size = pop)
    (h : choice rs pop size false = (.ok rel, rs')) : rel.Perm (List.range pop) := by
  rcases choice_ok_cases h with ⟨htr, _⟩ | ⟨_, hle, hrel, _⟩
  · exact absurd htr (by simp)
  · have := (drawWithoutReplacement_spec size (List.range pop) rs (by simpa using hle)).2.2.2
      (by simpa using hsz)
    exact hrel ▸ this

theorem choice_error_of_lt {rs : RandomState} {pop size : Nat}
    (hpop : 0 < pop) (hlt : pop < size) :
    choice rs pop size false = (.error .samplingError, rs) := by
  unfold choice
  rw [if_neg (by rintro ⟨h0, _⟩; omega), if_pos ⟨rfl, hlt⟩]

theorem choice_ok_of_le {rs : RandomState} {pop size : Nat} (hle : size ≤ pop) :
    ∃ rel rs', choice rs pop size false = (.ok rel, rs') := by
  refine ⟨(drawWithoutReplacement size (List.range pop) rs).1,
    (drawWithoutReplacement size (List.range pop) rs).2, ?_⟩
  unfold choice
  rw [if_neg (by rintro ⟨h0, hs⟩; omega), if_neg (by rintro ⟨_, hlt⟩; omega)]
  simp

/-! ### Properties of the modelled numpy array helpers -/

theorem mem_flatnonzero {y : List Int} {c : Int} {i : Nat} :
    i ∈ flatnonzero y c ↔ i < y.length ∧ y.getD i 0 = c := by
  simp [flatnonzero]

theorem flatnonzero_sorted (y : List Int) (c : Int) :
    List.Sorted (· < ·) (flatnonzero y c) :=
  List.Pairwise.filter _ (List.sorted_lt_range y.length)

theorem flatnonzero_nodup (y : List Int) (c : Int) : (flatnonzero y c).Nodup :=
  List.Nodup.filter _ (List.nodup_range y.length)

theorem flatnonzero_getD_mem {y : List Int} {c : Int} {j : Nat}
    (hj : j < count_nonzero y c) : (flatnonzero y c).getD j 0 ∈ flatnonzero y c := by
  rw [List.getD_eq_getElem _ _ hj]
  exact List.getElem_mem hj

theorem flatnonzero_getD_inj {y : List Int} {c : Int} {j k : Nat}
    (hj : j < count_nonzero y c) (hk : k < count_nonzero y c)
    (h : (flatnonzero y c).getD j 0 = (flatnonzero y c).getD k 0) : j = k := by
  rw [List.getD_eq_getElem _ _ hj, List.getD_eq_getElem _ _ hk] at h
  exact ((flatnonzero_nodup y c).getElem_inj_iff).mp h

theorem map_getD_range (l : List Nat) :
    (List.range l.length).map (fun j => l.getD j 0) = l := by
  apply List.ext_getElem
  · simp
  · intro i h1 h2
    rw [List.getElem_map, List.getElem_range]
    exact List.getD_eq_getElem _ _ h2

theorem npUnique_nodup (y : List Int) : (npUnique y).Nodup :=
  (List.perm_insertionSort _ _).nodup_iff.mpr y.nodup_dedup

theorem npUnique_sorted (y : List Int) : List.Sorted (· < ·) (npUnique y) :=
  List.Sorted.lt_of_le (List.sorted_insertionSort _ _) (npUnique_nodup y)

theorem mem_npUnique {y : List Int} {c : Int} : c ∈ npUnique y ↔ c ∈ y := by
  unfold npUnique
  rw [(List.perm_insertionSort _ _).mem_iff, List.mem_dedup]

theorem count_nonzero_pos {y : List Int} {c : Int} : 0 < count_nonzero y c ↔ c ∈ y := by
  unfold count_nonzero
  rw [List.length_pos_iff_exists_mem]
  constructor
  · rintro ⟨i, hi⟩
    obtain ⟨hlt, hlab⟩ := mem_flatnonzero.mp hi
    rw [List.getD_eq_getElem _ _ hlt] at hlab
    exact hlab ▸ List.getElem_mem hlt
  · intro hc
    obtain ⟨i, hlt, hieq⟩ := List.mem_iff_getElem.mp hc
    exact ⟨i, mem_flatnonzero.mpr ⟨hlt, by rw [List.getD_eq_getElem _ _ hlt, hieq]⟩⟩

/-! ### Properties of one loop iteration (`classBlock`) -/

theorem targetLen_of_lookup {y : List Int} {m : List (Int × Nat)} {c : Int} {n : Nat}
    (h : m.lookup c = some n) : targetLen y m c = n := by
  simp [targetLen, h]

theorem targetLen_of_untargeted {y : List Int} {m : List (Int × Nat)} {c : Int}
    (h : m.lookup c = none) : targetLen y m c = count_nonzero y c := by
  simp [targetLen, h]

theorem classBlock_untargeted {y : List Int} {m : List (Int × Nat)} {replacement : Bool}
    {rs : RandomState} {c : Int} (h : m.lookup c = none) :
    classBlock y m replacement rs c = (.ok (flatnonzero y c), rs) := by
  simp [classBlock, h]

theorem classBlock_ok_subset {y : List Int} {m : List (Int × Nat)} {replacement : Bool}
    {rs : RandomState} {c : Int} {b : List Nat} {rs' : RandomState}
    (h : classBlock y m replacement rs c = (.ok b, rs')) : ∀ i ∈ b, i ∈ flatnonzero y c := by
  unfold classBlock at h
  split at h
  · rename_i n hn
    split at h
    · rename_i rel rs'' hchoice
      injection h with h1 h2
      injection h1 with h1
      intro i hi
      rw [← h1] at hi
      obtain ⟨j, hj, hji⟩ := List.mem_map.mp hi
      exact hji ▸ flatnonzero_getD_mem (choice_ok_lt hchoice j hj)
    · exact absurd h (by simp)
  · rename_i hn
    injection h with h1 h2
    injection h1 with h1
    intro i hi
    exact h1 ▸ hi

theorem classBlock_ok_length {y : List Int} {m : List (Int × Nat)} {replacement : Bool}
    {rs : RandomState} {c : Int} {b : List Nat} {rs' : RandomState}
    (h : classBlock y m replacement rs c = (.ok b, rs')) : b.length = targetLen y m c := by
  unfold classBlock at h
  split at h
  · rename_i n hn
    split at h
    · rename_i rel rs'' hchoice
      injection h with h1 h2
      injection h1 with h1
      rw [targetLen_of_lookup hn, ← h1, List.length_map, choice_ok_length hchoice]
    · exact absurd h (by simp)
  · rename_i hn
    injection h with h1 h2
    injection h1 with h1
    rw [targetLen_of_untargeted hn, ← h1]
    rfl

theorem classBlock_ok_nodup {y : List Int} {m : List (Int × Nat)}
    {rs : RandomState} {c : Int} {b : List Nat} {rs' : RandomState}
    (h : classBlock y m false rs c = (.ok b, rs')) : b.Nodup := by
  unfold classBlock at h
  split at h
  · rename_i n hn
    split at h
    · rename_i rel rs'' hchoice
      injection h with h1 h2
      injection h1 with h1
      have hnd := choice_ok_nodup hchoice
      have hlt := choice_ok_lt hchoice
      rw [← h1]
      refine List.Nodup.map_on ?_ hnd
      intro j hj k hk hjk
      exact flatnonzero_getD_inj (hlt j hj) (hlt k hk) hjk
    · exact absurd h (by simp)
  · rename_i hn
    injection h with h1 h2
    injection h1 with h1
    exact h1 ▸ flatnonzero_nodup y c

theorem classBlock_ok_perm {y : List Int} {m : List (Int × Nat)}
    {rs : RandomState} {c : Int} {b : List Nat} {rs' : RandomState}
    (hn : m.lookup c = some (count_nonzero y c))
    (h : classBlock y m false rs c = (.ok b, rs')) : b.Perm (flatnonzero y c) := by
  unfold classBlock at h
  split at h
  · rename_i n hn'
    rw [hn] at hn'
    injection hn' with hn'
    split at h
    · rename_i rel rs'' hchoice
      injection h with h1 h2
      injection h1 with h1
      rw [← hn'] at hchoice
      have hperm := (choice_ok_perm rfl hchoice).map (fun j => (flatnonzero y c).getD j 0)
      have hcc : count_nonzero y c = (flatnonzero y c).length := rfl
      rw [hcc, map_getD_range] at hperm
      exact h1 ▸ hperm
    · exact absurd h (by simp)
  · rename_i hn'
    rw [hn] at hn'
    exact absurd hn' (by simp)

theorem classBlock_error_of_lt {y : List Int} {m : List (Int × Nat)}
    {rs : RandomState} {c : Int} {n : Nat} (hn : m.lookup c = some n)
    (hpos : 0 < count_nonzero y c) (hlt : count_nonzero y c < n) :
    classBlock y m false rs c = (.error .samplingError, rs) := by
  simp only [classBlock, hn, choice_error_of_lt hpos hlt]

theorem classBlock_false_cases {y : List Int} {m : List (Int × Nat)} {rs : RandomState}
    {c : Int} (hpos : 0 < count_nonzero y c) :
    (∃ b rs', classBlock y m false rs c = (.ok b, rs')) ∨
    classBlock y m false rs c = (.error .samplingError, rs) := by
  cases hl : m.lookup c with
  | none => exact .inl ⟨flatnonzero y c, rs, classBlock_untargeted hl⟩
  | some n =>
    rcases Nat.lt_or_ge (count_nonzero y c) n with hlt | hge
    · exact .inr (classBlock_error_of_lt hl hpos hlt)
    · left
      obtain ⟨rel, rs', hch⟩ := @choice_ok_of_le rs _ _ hge
      exact ⟨rel.map (fun j => (flatnonzero y c).getD j 0), rs', by
        simp only [classBlock, hl, hch]⟩

/-! ### Properties of the accumulation loop (`sampleClasses`) -/

theorem sampleClasses_ok_mem {y : List Int} {m : List (Int × Nat)} {replacement : Bool} :
    ∀ {cs : List Int} {rs : RandomState} {idx : List Nat},
      sampleClasses y m replacement cs rs = .ok idx →
      ∀ i ∈ idx, ∃ c ∈ cs, i ∈ flatnonzero y c := by
  intro cs
  induction cs with
  | nil =>
    intro rs idx h i hi
    injection h with h
    rw [← h] at hi
    simp at hi
  | cons c cs ih =>
    intro rs idx h i hi
    unfold sampleClasses at h
    split at h
    · rename_i b rs' hcb
      split at h
      · rename_i rest hrest
        injection h with h
        rw [← h] at hi
        rcases List.mem_append.mp hi with hb | hr
        · exact ⟨c, List.mem_cons_self _ _, classBlock_ok_subset hcb i hb⟩
        · obtain ⟨c', hc', hmem⟩ := ih hrest i hr
          exact ⟨c', List.mem_cons_of_mem _ hc', hmem⟩
      · exact absurd h (by simp)
    · exact absurd h (by simp)

theorem sampleClasses_ok_length {y : List Int} {m : List (Int × Nat)} {replacement : Bool} :
    ∀ {cs : List Int} {rs : RandomState} {idx : List Nat},
      sampleClasses y m replacement cs rs = .ok idx →
      idx.length = (cs.map (targetLen y m)).sum := by
  intro cs
  induction cs with
  | nil =>
    intro rs idx h
    injection h with h
    rw [← h]
    rfl
  | cons c cs ih =>
    intro rs idx h
    unfold sampleClasses at h
    split at h
    · rename_i b rs' hcb
      split at h
      · rename_i rest hrest
        injection h with h
        rw [← h, List.length_append, classBlock_ok_length hcb, ih hrest]
        simp
      · exact absurd h (by simp)
    · exact absurd h (by simp)

theorem sampleClasses_ok_nodup {y : List Int} {m : List (Int × Nat)} :
    ∀ {cs : List Int} {rs : RandomState} {idx : List Nat}, cs.Nodup →
      sampleClasses y m false cs rs = .ok idx → idx.Nodup := by
  intro cs
  induction cs with
  | nil =>
    intro rs idx _ h
    injection h with h
    rw [← h]
    exact List.nodup_nil
  | cons c cs ih =>
    intro rs idx hnd h
    unfold sampleClasses at h
    split at h
    · rename_i b rs' hcb
      split at h
      · rename_i rest hrest
        injection h with h
        rw [← h, List.nodup_append]
        refine ⟨classBlock_ok_nodup hcb, ih (List.nodup_cons.mp hnd).2 hrest, ?_⟩
        intro i hib hir
        have hlab : y.getD i 0 = c := (mem_flatnonzero.mp (classBlock_ok_subset hcb i hib)).2
        obtain ⟨c', hc', hmem⟩ := sampleClasses_ok_mem hrest i hir
        have hlab' : y.getD i 0 = c' := (mem_flatnonzero.mp hmem).2
        rw [hlab] at hlab'
        exact (List.nodup_cons.mp hnd).1 (hlab' ▸ hc')
      · exact absurd h (by simp)
    · exact absurd h (by simp)

theorem sampleClasses_filter_not_mem {y : List Int} {m : List (Int × Nat)}
    {replacement : Bool} {cs : List Int} {rs : RandomState} {idx : List Nat} {c : Int}
    (hc : c ∉ cs) (h : sampleClasses y m replacement cs rs = .ok idx) :
    idx.filter (fun i => y.getD i 0 = c) = [] := by
  rw [List.filter_eq_nil_iff]
  intro i hi
  obtain ⟨c', hc', hmem⟩ := sampleClasses_ok_mem h i hi
  have hlab : y.getD i 0 = c' := (mem_flatnonzero.mp hmem).2
  simp only [decide_eq_true_eq]
  intro heq
  rw [hlab] at heq
  exact hc (heq ▸ hc')

theorem sampleClasses_filter_of_mem {y : List Int} {m : List (Int × Nat)}
    {replacement : Bool} :
    ∀ {cs : List Int} {rs : RandomState} {idx : List Nat} {c : Int}, cs.Nodup → c ∈ cs →
      sampleClasses y m replacement cs rs = .ok idx →
      ∃ rs₀ b rs₁, classBlock y m replacement rs₀ c = (.ok b, rs₁) ∧
        idx.filter (fun i => y.getD i 0 = c) = b := by
  intro cs
  induction cs with
  | nil =>
    intro rs idx c _ hc
    exact absurd hc (List.not_mem_nil c)
  | cons c'' cs ih =>
    intro rs idx c hnd hc h
    unfold sampleClasses at h
    split at h
    · rename_i b rs' hcb
      split at h
      · rename_i rest hrest
        injection h with h
        rw [← h, List.filter_append]
        rcases List.mem_cons.mp hc with hceq | hctail
        · refine ⟨rs, b, rs', hceq ▸ hcb, ?_⟩
          have hfb : b.filter (fun i => y.getD i 0 = c) = b := by
            rw [List.filter_eq_self]
            intro i hi
            have hlab := (mem_flatnonzero.mp (classBlock_ok_subset hcb i hi)).2
            simp only [decide_eq_true_eq, hceq]
            exact hlab
          have hfr : rest.filter (fun i => y.getD i 0 = c) = [] := by
            refine sampleClasses_filter_not_mem ?_ hrest
            rw [hceq]
            exact (List.nodup_cons.mp hnd).1
          rw [hfb, hfr, List.append_nil]
        · have hne : c ≠ c'' := by
            intro heq
            exact (List.nodup_cons.mp hnd).1 (heq ▸ hctail)
          obtain ⟨rs₀, b', rs₁, hcb', hfr⟩ := ih (List.nodup_cons.mp hnd).2 hctail hrest
          refine ⟨rs₀, b', rs₁, hcb', ?_⟩
          have hfb : b.filter (fun i => y.getD i 0 = c) = [] := by
            rw [List.filter_eq_nil_iff]
            intro i hi
            have hlab := (mem_flatnonzero.mp (classBlock_ok_subset hcb i hi)).2
            simp only [decide_eq_true_eq]
            intro heq
            exact hne (heq.symm.trans hlab)
          rw [hfb, hfr, List.nil_append]
      · exact absurd h (by simp)
    · exact absurd h (by simp)

theorem sampleClasses_error_of_infeasible {y : List Int} {m : List (Int × Nat)} :
    ∀ {cs : List Int} {rs : RandomState} {c : Int} {n : Nat},
      (∀ c' ∈ cs, 0 < count_nonzero y c') → c ∈ cs → m.lookup c = some n →
      count_nonzero y c < n →
      sampleClasses y m false cs rs = .error .samplingError := by
  intro cs
  induction cs with
  | nil =>
    intro rs c n _ hc
    exact absurd hc (List.not_mem_nil c)
  | cons c'' cs ih =>
    intro rs c n hpos hc hl hlt
    rcases List.mem_cons.mp hc with hceq | hctail
    · have hblk : classBlock y m false rs c'' = (.error .samplingError, rs) := by
        refine classBlock_error_of_lt (hceq ▸ hl) (hpos c'' (List.mem_cons_self _ _)) ?_
        rw [← hceq]
        exact hlt
      unfold sampleClasses
      rw [hblk]
    · rcases @classBlock_false_cases y m rs c'' (hpos c'' (List.mem_cons_self _ _)) with
        ⟨b, rs', hok⟩ | herr
      · have hrec := @ih rs' c n (fun c' hc' => hpos c' (List.mem_cons_of_mem _ hc')) hctail hl hlt
        unfold sampleClasses
        simp only [hok, hrec]
      · unfold sampleClasses
        simp only [herr]

/-! ### Destructors for `_sample` and block decomposition -/

theorem sample_core_error [Inhabited α] {s : RandomUnderSampler} {X : List α}
    {y : List Int} {e : SampleError}
    (h : sampleClasses y s.sampling_target_ s.replacement (npUnique y)
        (check_random_state s.random_state) = .error e) :
    _sample s X y = .error e := by
  unfold _sample
  simp only [h]

theorem sample_ok_destruct [Inhabited α] {s : RandomUnderSampler} {X : List α}
    {y : List Int} {Xr : List α} {yr : List Int} {oidx : Option (List Nat)}
    (h : _sample s X y = .ok (Xr, yr, oidx)) :
    ∃ idx, sampleClasses y s.sampling_target_ s.replacement (npUnique y)
        (check_random_state s.random_state) = .ok idx ∧
      Xr = safe_indexing X idx ∧ yr = safe_indexing y idx ∧
      oidx = (if s.return_indices then some idx else none) := by
  cases hs : sampleClasses y s.sampling_target_ s.replacement (npUnique y)
      (check_random_state s.random_state) with
  | error e =>
    rw [@sample_core_error _ _ s X y e hs] at h
    exact absurd h (by simp)
  | ok idx =>
    have hval : _sample s X y = .ok (safe_indexing X idx, safe_indexing y idx,
        if s.return_indices then some idx else none) := by
      unfold _sample
      simp only [hs]
    rw [hval] at h
    injection h with h
    injection h with h1 h23
    injection h23 with h2 h3
    exact ⟨idx, rfl, h1.symm, h2.symm, h3.symm⟩

theorem sampleClasses_ok_blocks {y : List Int} {m : List (Int × Nat)} {replacement : Bool} :
    ∀ {cs : List Int} {rs : RandomState} {idx : List Nat},
      sampleClasses y m replacement cs rs = .ok idx →
      ∃ blocks : List (List Nat), idx = blocks.flatten ∧ blocks.length = cs.length ∧
        ∀ k (hk : k < blocks.length), ∃ rs₀ rs₁,
          classBlock y m replacement rs₀ (cs.getD k 0) = (.ok (blocks.get ⟨k, hk⟩), rs₁) := by
  intro cs
  induction cs with
  | nil =>
    intro rs idx h
    injection h with h
    refine ⟨[], by simp [← h], rfl, ?_⟩
    intro k hk
    exact absurd hk (by simp)
  | cons c cs ih =>
    intro rs idx h
    unfold sampleClasses at h
    split at h
    · rename_i b rs' hcb
      split at h
      · rename_i rest hrest
        injection h with h
        obtain ⟨blocks, hflat, hlen, hspec⟩ := ih hrest
        refine ⟨b :: blocks, by simp [← h, hflat], by simp [hlen], ?_⟩
        intro k hk
        cases k with
        | zero => exact ⟨rs, rs', hcb⟩
        | succ k =>
          have hk' : k < blocks.length := by simpa using Nat.lt_of_succ_lt_succ hk
          obtain ⟨rs₀, rs₁, hb⟩ := hspec k hk'
          exact ⟨rs₀, rs₁, hb⟩
      · exact absurd h (by simp)
    · exact absurd h (by simp)

/-! ### Summation helpers for the output-size contract -/

theorem sum_map_split (l : List Int) (p : Int → Bool) (f : Int → Nat) :
    (l.map f).sum = ((l.filter p).map f).sum + ((l.filter (fun a => !p a)).map f).sum := by
  induction l with
  | nil => rfl
  | cons x xs ih =>
    rcases Bool.eq_false_or_eq_true (p x) with hx | hx
    · simp [List.filter_cons, hx, ih]
      omega
    · simp [List.filter_cons, hx, ih]
      omega

theorem lookup_isSome_iff {m : List (Int × Nat)} {c : Int} :
    (m.lookup c).isSome = true ↔ c ∈ m.map Prod.fst := by
  induction m with
  | nil => simp [List.lookup]
  | cons p m' ih =>
    rcases p with ⟨k, v⟩
    by_cases hck : c = k
    · simp [List.lookup, hck]
    · have : (c == k) = false := beq_false_of_ne hck
      simp [List.lookup, this, ih, hck]

theorem sum_lookup_values {y : List Int} :
    ∀ {m : List (Int × Nat)}, (m.map Prod.fst).Nodup →
      ((m.map Prod.fst).map (targetLen y m)).sum = (m.map Prod.snd).sum := by
  intro m
  induction m with
  | nil => intro _; rfl
  | cons p m' ih =>
    intro hnd
    rcases p with ⟨k, v⟩
    rw [List.map_cons] at hnd
    obtain ⟨hknot, hnd'⟩ := List.nodup_cons.mp hnd
    have hk : targetLen y ((k, v) :: m') k = v := targetLen_of_lookup (by simp)
    have hrest : (m'.map Prod.fst).map (targetLen y ((k, v) :: m'))
        = (m'.map Prod.fst).map (targetLen y m') := by
      apply List.map_congr_left
      intro c hc
      have hck : (c == k) = false := by
        refine beq_false_of_ne ?_
        intro hck
        exact hknot (hck ▸ hc)
      unfold targetLen
      rw [List.lookup_cons]
      simp only [hck]
    simp only [List.map_cons, List.sum_cons, hk, hrest, ih hnd']

theorem sum_targeted_eq {y : List Int} {m : List (Int × Nat)}
    (hnd : (m.map Prod.fst).Nodup) (hpres : ∀ p ∈ m, p.1 ∈ y) :
    (((npUnique y).filter (fun c => (m.lookup c).isSome)).map (targetLen y m)).sum
      = (m.map Prod.snd).sum := by
  have hperm : ((npUnique y).filter (fun c => (m.lookup c).isSome)).Perm (m.map Prod.fst) := by
    rw [List.perm_ext_iff_of_nodup (List.Nodup.filter _ (npUnique_nodup y)) hnd]
    intro c
    constructor
    · intro hc
      exact lookup_isSome_iff.mp (List.mem_filter.mp hc).2
    · intro hc
      refine List.mem_filter.mpr ⟨?_, lookup_isSome_iff.mpr hc⟩
      obtain ⟨p, hp, hpc⟩ := List.mem_map.mp hc
      exact mem_npUnique.mpr (hpc ▸ hpres p hp)
  rw [(hperm.map (targetLen y m)).sum_eq, sum_lookup_values hnd]

theorem safe_indexing_length [Inhabited α] (X : List α) (idx : List Nat) :
    (safe_indexing X idx).length = idx.length := List.length_map _ _

theorem oidx_some_eq {s : RandomUnderSampler} {idx idx' : List Nat}
    (h : some idx = if s.return_indices then some idx' else none) : idx' = idx := by
  cases hri : s.return_indices with
  | false =>
    rw [hri] at h
    simp at h
  | true =>
    rw [hri] at h
    simp at h
    exact h.symm

theorem countP_safe_indexing (y : List Int) (idx : List Nat) (c : Int) :
    (safe_indexing y idx).countP (fun v => v = c)
      = (idx.filter (fun i => y.getD i 0 = c)).length := by
  unfold safe_indexing
  rw [List.countP_map, List.countP_eq_length_filter]
  rfl

theorem flatnonzero_eq_nil {y : List Int} {c : Int} (hcy : c ∉ y) :
    flatnonzero y c = [] := by
  apply List.eq_nil_of_length_eq_zero
  have := mt count_nonzero_pos.mp hcy
  unfold count_nonzero at this
  omega

/-! ### The claims -/

/-- C1: for features/labels input with a sampling target dict whose keys are
classes present in the labels and whose counts are feasible (the call
succeeds), `_sample` returns features and labels of one common length, and
that length is the sum of the target counts over the classes named in the
mapping plus the sum of the original class counts over the present classes
not named in the mapping. -/
theorem C1_output_length [Inhabited α] (s : RandomUnderSampler) (X : List α)
    (y : List Int) (Xr : List α) (yr : List Int) (oidx : Option (List Nat))
    (hkeys : (s.sampling_target_.map Prod.fst).Nodup)
    (hpres : ∀ p ∈ s.sampling_target_, p.1 ∈ y)
    (h : _sample s X y = .ok (Xr, yr, oidx)) :
    Xr.length = yr.length ∧
    yr.length = (s.sampling_target_.map Prod.snd).sum +
      (((npUnique y).filter (fun c => s.sampling_target_.lookup c = none)).map
        (count_nonzero y)).sum := by
  obtain ⟨idx, hs, hX, hy, _⟩ := sample_ok_destruct h
  have hlen : idx.length = ((npUnique y).map (targetLen y s.sampling_target_)).sum :=
    sampleClasses_ok_length hs
  have huntf : (npUnique y).filter (fun c => !(s.sampling_target_.lookup c).isSome)
      = (npUnique y).filter (fun c => s.sampling_target_.lookup c = none) := by
    apply List.filter_congr
    intro c _
    cases s.sampling_target_.lookup c <;> simp
  have huntm : ((npUnique y).filter (fun c => s.sampling_target_.lookup c = none)).map
        (targetLen y s.sampling_target_)
      = ((npUnique y).filter (fun c => s.sampling_target_.lookup c = none)).map
        (count_nonzero y) := by
    apply List.map_congr_left
    intro c hc
    have hnone := (List.mem_filter.mp hc).2
    simp only [decide_eq_true_eq] at hnone
    exact targetLen_of_untargeted hnone
  constructor
  · rw [hX, hy, safe_indexing_length, safe_indexing_length]
  · calc yr.length = idx.length := by rw [hy, safe_indexing_length]
      _ = ((npUnique y).map (targetLen y s.sampling_target_)).sum := hlen
      _ = (((npUnique y).filter (fun c => (s.sampling_target_.lookup c).isSome)).map
            (targetLen y s.sampling_target_)).sum +
          (((npUnique y).filter (fun c => !(s.sampling_target_.lookup c).isSome)).map
            (targetLen y s.sampling_target_)).sum :=
        sum_map_split (npUnique y) _ _
      _ = (s.sampling_target_.map Prod.snd).sum +
          (((npUnique y).filter (fun c => s.sampling_target_.lookup c = none)).map
            (count_nonzero y)).sum := by
        rw [sum_targeted_eq hkeys hpres, huntf, huntm]

/-- C2: with `replacement=False`, the returned Index Selection has no
duplicate index and every index is a position of the input (in `[0, N)`
with `N` the number of input rows and labels). -/
theorem C2_no_duplicate_indices [Inhabited α] (s : RandomUnderSampler) (X : List α)
    (y : List Int) (Xr : List α) (yr : List Int) (idx : List Nat)
    (hrep : s.replacement = false)
    (h : _sample s X y = .ok (Xr, yr, some idx)) :
    idx.Nodup ∧ ∀ i ∈ idx, i < y.length := by
  obtain ⟨idx', hs, _, _, hoidx⟩ := sample_ok_destruct h
  obtain rfl := oidx_some_eq hoidx
  rw [hrep] at hs
  refine ⟨sampleClasses_ok_nodup (npUnique_nodup y) hs, ?_⟩
  intro i hi
  obtain ⟨c, _, hmem⟩ := sampleClasses_ok_mem hs i hi
  exact (mem_flatnonzero.mp hmem).1

/-- C3: the sample operation is a pure function of the seed, the inputs and
the configuration (two runs with identical arguments give identical
results), and it is representation invariant: encoding each feature row
(e.g. dense to sparse) commutes with sampling, with identical labels and
identical selected index sequences on both representations. -/
theorem C3_determinism_and_representation [Inhabited α] [Inhabited β]
    (enc : α → β) (s : RandomUnderSampler) (X : List α) (y : List Int)
    (hXy : X.length = y.length)
    (Xr : List α) (yr : List Int) (oidx : Option (List Nat))
    (h : _sample s X y = .ok (Xr, yr, oidx)) :
    _sample s X y = .ok (Xr, yr, oidx) ∧
    _sample s (X.map enc) y = .ok (Xr.map enc, yr, oidx) := by
  refine ⟨h, ?_⟩
  obtain ⟨idx, hs, hX, hy, hoidx⟩ := sample_ok_destruct h
  have hrange : ∀ i ∈ idx, i < X.length := by
    intro i hi
    obtain ⟨c, _, hmem⟩ := sampleClasses_ok_mem hs i hi
    rw [hXy]
    exact (mem_flatnonzero.mp hmem).1
  have hmap : safe_indexing (X.map enc) idx = (safe_indexing X idx).map enc := by
    unfold safe_indexing
    rw [List.map_map]
    apply List.map_congr_left
    intro i hi
    have hlt := hrange i hi
    simp only [Function.comp]
    rw [List.getD_eq_getElem _ _ (by simpa using hlt), List.getElem_map,
      List.getD_eq_getElem _ _ hlt]
  have hval : _sample s (X.map enc) y = .ok (safe_indexing (X.map enc) idx,
      safe_indexing y idx, if s.return_indices then some idx else none) := by
    unfold _sample
    simp only [hs]
  rw [hval, hmap, ← hX, ← hy, ← hoidx]

/-- C4: a class present in the labels but not named in the sampling target
mapping passes through whole: the selected indices with that label are
exactly all its original positions in ascending (original) order, and the
output label vector carries exactly the original number of its rows. -/
theorem C4_untargeted_passthrough [Inhabited α] (s : RandomUnderSampler) (X : List α)
    (y : List Int) (Xr : List α) (yr : List Int) (idx : List Nat) (c : Int)
    (hcy : c ∈ y) (hun : s.sampling_target_.lookup c = none)
    (h : _sample s X y = .ok (Xr, yr, some idx)) :
    idx.filter (fun i => y.getD i 0 = c) = flatnonzero y c ∧
    yr.countP (fun v => v = c) = count_nonzero y c := by
  obtain ⟨idx', hs, _, hy, hoidx⟩ := sample_ok_destruct h
  obtain rfl := oidx_some_eq hoidx
  obtain ⟨rs₀, b, rs₁, hcb, hfil⟩ :=
    sampleClasses_filter_of_mem (npUnique_nodup y) (mem_npUnique.mpr hcy) hs
  rw [classBlock_untargeted hun] at hcb
  injection hcb with h1 h2
  injection h1 with h1
  have hfe : idx'.filter (fun i => y.getD i 0 = c) = flatnonzero y c := by
    rw [hfil, ← h1]
  refine ⟨hfe, ?_⟩
  rw [hy, countP_safe_indexing, hfe]
  rfl

/-- C5: with `replacement=False`, a sampling target naming a present class
with a count strictly greater than the class's available count makes
`_sample` abort with the sampling error (numpy's oversized-draw
`ValueError`); no output is produced. -/
theorem C5_oversample_error [Inhabited α] (s : RandomUnderSampler) (X : List α)
    (y : List Int) (c : Int) (n : Nat)
    (hrep : s.replacement = false) (hcy : c ∈ y)
    (hl : s.sampling_target_.lookup c = some n)
    (hlt : count_nonzero y c < n) :
    _sample s X y = .error .samplingError := by
  apply sample_core_error
  rw [hrep]
  exact sampleClasses_error_of_infeasible
    (fun c' hc' => count_nonzero_pos.mpr (mem_npUnique.mp hc'))
    (mem_npUnique.mpr hcy) hl hlt

/-- C6: targeting a class with no available sample in the labels makes the
public sample operation fail with the configuration error raised by the
target-resolver validation, modelled from the spec (the validation code is
not under `src/`). -/
theorem C6_zero_count_configuration_error [Inhabited α] (s : RandomUnderSampler)
    (X : List α) (y : List Int) (c : Int) (n : Nat)
    (hmem : (c, n) ∈ s.sampling_target_) (hzero : count_nonzero y c = 0) :
    sample s X y = .error .configurationError := by
  have hnot : ¬((s.sampling_target_.all fun p => decide (0 < count_nonzero y p.1)) = true) := by
    intro hall
    have := List.all_eq_true.mp hall (c, n) hmem
    rw [hzero] at this
    simp at this
  have hval : validate_sampling_target s.sampling_target_ y
      = .error .configurationError := by
    unfold validate_sampling_target
    rw [if_neg hnot]
  unfold sample
  simp only [hval]

/-- C7: the output row order is the concatenation of per-class index blocks
taken in ascending order of the class labels present (`np.unique` is
strictly sorted): the selected index sequence flattens a list of one block
per class, each produced by that class's loop iteration (`classBlock`, so a
sub-sampled block is the image of the draw in draw order), an untargeted
class's block being all its positions, which are in ascending original
order. -/
theorem C7_block_order [Inhabited α] (s : RandomUnderSampler) (X : List α)
    (y : List Int) (Xr : List α) (yr : List Int) (idx : List Nat)
    (h : _sample s X y = .ok (Xr, yr, some idx)) :
    List.Sorted (· < ·) (npUnique y) ∧
    (∀ c, List.Sorted (· < ·) (flatnonzero y c)) ∧
    ∃ blocks : List (List Nat),
      idx = blocks.flatten ∧ blocks.length = (npUnique y).length ∧
      ∀ k (hk : k < blocks.length),
        (∃ rs₀ rs₁, classBlock y s.sampling_target_ s.replacement rs₀
            ((npUnique y).getD k 0) = (.ok (blocks.get ⟨k, hk⟩), rs₁)) ∧
        (s.sampling_target_.lookup ((npUnique y).getD k 0) = none →
          blocks.get ⟨k, hk⟩ = flatnonzero y ((npUnique y).getD k 0)) := by
  obtain ⟨idx', hs, _, _, hoidx⟩ := sample_ok_destruct h
  obtain rfl := oidx_some_eq hoidx
  obtain ⟨blocks, hflat, hblen, hspec⟩ := sampleClasses_ok_blocks hs
  refine ⟨npUnique_sorted y, fun c => flatnonzero_sorted y c, blocks, hflat, hblen, ?_⟩
  intro k hk
  obtain ⟨rs₀, rs₁, hb⟩ := hspec k hk
  refine ⟨⟨rs₀, rs₁, hb⟩, ?_⟩
  intro hun
  rw [classBlock_untargeted hun] at hb
  injection hb with h1 h2
  injection h1 with h1
  exact h1.symm

/-- C8: when `return_indices` is set the call returns the Index Selection,
of the same length as the outputs and parallel to them (output row `k` is
input row `idx[k]`, output label `k` is input label `idx[k]`); when it is
not set, no index component is returned. -/
theorem C8_index_output [Inhabited α] (s : RandomUnderSampler) (X : List α)
    (y : List Int) (Xr : List α) (yr : List Int) (oidx : Option (List Nat))
    (h : _sample s X y = .ok (Xr, yr, oidx)) :
    (s.return_indices = true → ∃ idx, oidx = some idx ∧
      idx.length = Xr.length ∧ idx.length = yr.length ∧
      ∀ k, k < idx.length →
        Xr.getD k default = X.getD (idx.getD k 0) default ∧
        yr.getD k 0 = y.getD (idx.getD k 0) 0) ∧
    (s.return_indices = false → oidx = none) := by
  obtain ⟨idx, hs, hX, hy, hoidx⟩ := sample_ok_destruct h
  constructor
  · intro hri
    rw [hri] at hoidx
    simp only [if_pos rfl] at hoidx
    refine ⟨idx, hoidx, by rw [hX, safe_indexing_length], by rw [hy, safe_indexing_length], ?_⟩
    intro k hk
    constructor
    · rw [hX]
      unfold safe_indexing
      rw [List.getD_eq_getElem _ _ (by simpa using hk), List.getElem_map,
        List.getD_eq_getElem _ _ hk]
    · rw [hy]
      unfold safe_indexing
      rw [List.getD_eq_getElem _ _ (by simpa using hk), List.getElem_map,
        List.getD_eq_getElem _ _ hk]
      rfl
  · intro hri
    rw [hri] at hoidx
    simpa using hoidx

/-- C9: block label purity: every index a class's loop iteration contributes
points at a row of that class (in range and with that label); consequently,
for every class present in the labels, the output label vector carries
exactly the resolved count of that class (the target count when targeted,
the original count when not). -/
theorem C9_block_label_purity [Inhabited α] (s : RandomUnderSampler) (X : List α)
    (y : List Int) (Xr : List α) (yr : List Int) (oidx : Option (List Nat))
    (h : _sample s X y = .ok (Xr, yr, oidx)) :
    (∀ (rs rs' : RandomState) (c : Int) (b : List Nat),
      classBlock y s.sampling_target_ s.replacement rs c = (.ok b, rs') →
      ∀ i ∈ b, i < y.length ∧ y.getD i 0 = c) ∧
    (∀ c ∈ npUnique y, yr.countP (fun v => v = c) = targetLen y s.sampling_target_ c) := by
  obtain ⟨idx, hs, _, hy, _⟩ := sample_ok_destruct h
  constructor
  · intro rs rs' c b hcb i hib
    exact mem_flatnonzero.mp (classBlock_ok_subset hcb i hib)
  · intro c hc
    obtain ⟨rs₀, b, rs₁, hcb, hfil⟩ :=
      sampleClasses_filter_of_mem (npUnique_nodup y) hc hs
    rw [hy, countP_safe_indexing]
    have : List.filter (fun i => decide (y.getD i 0 = c)) idx = b := hfil
    rw [this, classBlock_ok_length hcb]

/-- C10: with `replacement=False`, when the mapping requests for a class
exactly its available count, the indices selected for that class are a
permutation of all of the class's original row positions: same set, no
omission, no duplicate, possibly reordered. -/
theorem C10_full_count_permutation [Inhabited α] (s : RandomUnderSampler) (X : List α)
    (y : List Int) (Xr : List α) (yr : List Int) (idx : List Nat) (c : Int)
    (hrep : s.replacement = false)
    (hl : s.sampling_target_.lookup c = some (count_nonzero y c))
    (h : _sample s X y = .ok (Xr, yr, some idx)) :
    (idx.filter (fun i => y.getD i 0 = c)).Perm (flatnonzero y c) := by
  obtain ⟨idx', hs, _, _, hoidx⟩ := sample_ok_destruct h
  obtain rfl := oidx_some_eq hoidx
  by_cases hcy : c ∈ y
  · obtain ⟨rs₀, b, rs₁, hcb, hfil⟩ :=
      sampleClasses_filter_of_mem (npUnique_nodup y) (mem_npUnique.mpr hcy) hs
    rw [hrep] at hcb
    rw [hfil]
    exact classBlock_ok_perm hl hcb
  · have hnone := sampleClasses_filter_not_mem
      (fun hmem => hcy (mem_npUnique.mp hmem)) hs
    rw [hnone, flatnonzero_eq_nil hcy]

/-! ### Concrete witnesses -/

/-- Witness for C1: four rows, class 1 under-sampled from 3 to 2, class 0
kept (1 row), so 3 output rows. -/
theorem C1_output_length_witness :
    ([10, 20, 30] : List Int).length = ([0, 1, 1] : List Int).length ∧
    ([0, 1, 1] : List Int).length =
      (([((1 : Int), (2 : Nat))]).map Prod.snd).sum +
      (((npUnique [0, 1, 1, 1]).filter
        (fun c => ([((1 : Int), (2 : Nat))]).lookup c = none)).map
        (count_nonzero [0, 1, 1, 1])).sum :=
  C1_output_length ⟨[(1, 2)], true, 0, false⟩ ([10, 20, 30, 40] : List Int)
    [0, 1, 1, 1] [10, 20, 30] [0, 1, 1] (some [0, 1, 2])
    (by decide) (by decide) rfl

/-- Witness for C2: the selected indices are distinct and within range. -/
theorem C2_no_duplicate_indices_witness :
    ([0, 1, 2] : List Nat).Nodup ∧
    ∀ i ∈ ([0, 1, 2] : List Nat), i < ([0, 1, 1, 1] : List Int).length :=
  C2_no_duplicate_indices ⟨[(1, 2)], true, 0, false⟩ ([10, 20, 30, 40] : List Int)
    [0, 1, 1, 1] [10, 20, 30] [0, 1, 1] [0, 1, 2] rfl rfl

/-- Witness for C3: doubling every feature row commutes with sampling and
leaves the labels and the selected indices unchanged. -/
theorem C3_determinism_and_representation_witness :
    _sample ⟨[(1, 2)], true, 0, false⟩ ([10, 20, 30, 40] : List Int) [0, 1, 1, 1]
      = .ok ([10, 20, 30], [0, 1, 1], some [0, 1, 2]) ∧
    _sample ⟨[(1, 2)], true, 0, false⟩
        (([10, 20, 30, 40] : List Int).map (fun v => v * 2)) [0, 1, 1, 1]
      = .ok (([10, 20, 30] : List Int).map (fun v => v * 2), [0, 1, 1], some [0, 1, 2]) :=
  C3_determinism_and_representation (fun v => v * 2) ⟨[(1, 2)], true, 0, false⟩
    ([10, 20, 30, 40] : List Int) [0, 1, 1, 1] rfl
    [10, 20, 30] [0, 1, 1] (some [0, 1, 2]) rfl

/-- Witness for C4: class 0 is untargeted and passes through whole. -/
theorem C4_untargeted_passthrough_witness :
    ([0, 1, 2] : List Nat).filter
      (fun i => ([0, 1, 1, 1] : List Int).getD i 0 = 0) = flatnonzero [0, 1, 1, 1] 0 ∧
    ([0, 1, 1] : List Int).countP (fun v => v = 0) = count_nonzero [0, 1, 1, 1] 0 :=
  C4_untargeted_passthrough ⟨[(1, 2)], true, 0, false⟩ ([10, 20, 30, 40] : List Int)
    [0, 1, 1, 1] [10, 20, 30] [0, 1, 1] [0, 1, 2] 0 (by decide) rfl rfl

/-- Witness for C5: requesting 5 rows from class 1, which has only 3, with
`replacement=False`, aborts with the sampling error. -/
theorem C5_oversample_error_witness :
    _sample ⟨[(1, 5)], true, 0, false⟩ ([10, 20, 30, 40] : List Int) [0, 1, 1, 1]
      = .error .samplingError :=
  C5_oversample_error ⟨[(1, 5)], true, 0, false⟩ ([10, 20, 30, 40] : List Int)
    [0, 1, 1, 1] 1 5 rfl (by decide) rfl (by decide)

/-- Witness for C6: targeting class 5, absent from the labels, fails the
resolver validation. -/
theorem C6_zero_count_configuration_error_witness :
    sample ⟨[(5, 1)], true, 0, false⟩ ([10, 20] : List Int) [0, 1]
      = .error .configurationError :=
  C6_zero_count_configuration_error ⟨[(5, 1)], true, 0, false⟩ ([10, 20] : List Int)
    [0, 1] 5 1 (by decide) (by decide)

/-- Witness for C7: the selected index sequence decomposes into
ascending-class blocks. -/
theorem C7_block_order_witness :
    List.Sorted (· < ·) (npUnique [0, 1, 1, 1]) ∧
    (∀ c, List.Sorted (· < ·) (flatnonzero [0, 1, 1, 1] c)) ∧
    ∃ blocks : List (List Nat),
      ([0, 1, 2] : List Nat) = blocks.flatten ∧
      blocks.length = (npUnique [0, 1, 1, 1]).length ∧
      ∀ k (hk : k < blocks.length),
        (∃ rs₀ rs₁, classBlock [0, 1, 1, 1] [(1, 2)] false rs₀
            ((npUnique [0, 1, 1, 1]).getD k 0) = (.ok (blocks.get ⟨k, hk⟩), rs₁)) ∧
        (([((1 : Int), (2 : Nat))]).lookup ((npUnique [0, 1, 1, 1]).getD k 0) = none →
          blocks.get ⟨k, hk⟩ = flatnonzero [0, 1, 1, 1] ((npUnique [0, 1, 1, 1]).getD k 0)) :=
  C7_block_order ⟨[(1, 2)], true, 0, false⟩ ([10, 20, 30, 40] : List Int)
    [0, 1, 1, 1] [10, 20, 30] [0, 1, 1] [0, 1, 2] rfl

/-- Witness for C8: the returned indices are parallel to the outputs. -/
theorem C8_index_output_witness :
    (true = true → ∃ idx, (some [0, 1, 2] : Option (List Nat)) = some idx ∧
      idx.length = ([10, 20, 30] : List Int).length ∧
      idx.length = ([0, 1, 1] : List Int).length ∧
      ∀ k, k < idx.length →
        ([10, 20, 30] : List Int).getD k default
          = ([10, 20, 30, 40] : List Int).getD (idx.getD k 0) default ∧
        ([0, 1, 1] : List Int).getD k 0
          = ([0, 1, 1, 1] : List Int).getD (idx.getD k 0) 0) ∧
    (true = false → (some [0, 1, 2] : Option (List Nat)) = none) :=
  C8_index_output ⟨[(1, 2)], true, 0, false⟩ ([10, 20, 30, 40] : List Int)
    [0, 1, 1, 1] [10, 20, 30] [0, 1, 1] (some [0, 1, 2]) rfl

/-- Witness for C9: every block is label-pure and the output label counts
match the resolved targets. -/
theorem C9_block_label_purity_witness :
    (∀ (rs rs' : RandomState) (c : Int) (b : List Nat),
      classBlock [0, 1, 1, 1] [(1, 2)] false rs c = (.ok b, rs') →
      ∀ i ∈ b, i < ([0, 1, 1, 1] : List Int).length ∧
        ([0, 1, 1, 1] : List Int).getD i 0 = c) ∧
    (∀ c ∈ npUnique [0, 1, 1, 1],
      ([0, 1, 1] : List Int).countP (fun v => v = c)
        = targetLen [0, 1, 1, 1] [(1, 2)] c) :=
  C9_block_label_purity ⟨[(1, 2)], true, 0, false⟩ ([10, 20, 30, 40] : List Int)
    [0, 1, 1, 1] [10, 20, 30] [0, 1, 1] (some [0, 1, 2]) rfl

/-- Witness for C10: class 1 targeted at its full count 3; its selected
indices `[0, 3, 2]` permute its positions `[0, 2, 3]`. -/
theorem C10_full_count_permutation_witness :
    (([1, 4, 0, 3, 2] : List Nat).filter
      (fun i => ([1, 0, 1, 1, 0] : List Int).getD i 0 = 1)).Perm
      (flatnonzero [1, 0, 1, 1, 0] 1) :=
  C10_full_count_permutation ⟨[(1, 3)], true, 7, false⟩
    ([10, 20, 30, 40, 50] : List Int) [1, 0, 1, 1, 0]
    [20, 50, 10, 40, 30] [0, 0, 1, 1, 1] [1, 4, 0, 3, 2] 1 rfl rfl rfl

end Imblearn
